import Mathlib

/-!
Verification of the AmbientCli version-resolution and provisioning engine.

The definitions below are a shallow embedding of the repository's Rust
sources (src/versions.rs, src/environment.rs, src/main.rs).  Pure string
manipulation and the catalog pipeline are translated into executable Lean
functions; the filesystem and the network are made explicit as state
parameters and oracles.  External library behaviour (the semver crate's
parser and printer, the GCS object-listing prefix filter, the zip crate's
extraction) is modelled in clearly marked definitions.
-/

namespace Ambient

/-! ## Character-level string utilities

The Rust code splits object keys and version strings on single-character
separators.  We work on the underlying character lists for full control
over reduction. -/

/-- Split a character list on a separator character, mirroring Rust's
single-character str::split: an empty input yields one empty field. -/
def splitChars (sep : Char) : List Char → List (List Char)
  | [] => [[]]
  | c :: cs =>
    if c = sep then [] :: splitChars sep cs
    else
      match splitChars sep cs with
      | [] => [[c]]
      | g :: gs => (c :: g) :: gs

/-- Split a string on a separator character; fields come back as strings. -/
def splitStr (sep : Char) (s : String) : List String :=
  (splitChars sep s.data).map (fun l => String.mk l)

/-- Check that the first list is an initial segment of the second. -/
def startsWithChars : List Char → List Char → Bool
  | [], _ => true
  | _ :: _, [] => false
  | a :: as, b :: bs => a = b && startsWithChars as bs

/-- Check that a string is an initial segment of another string. -/
def strStartsWith (p s : String) : Bool :=
  startsWithChars p.data s.data

/-- Check whether the pattern occurs as a contiguous subsequence of the
character list. -/
def hasSubstr (pat : List Char) : List Char → Bool
  | [] => startsWithChars pat []
  | c :: cs => startsWithChars pat (c :: cs) || hasSubstr pat cs

/-- Check whether the pattern string occurs contiguously in the subject,
mirroring Rust's str::contains. -/
def strContains (s pat : String) : Bool :=
  hasSubstr pat.data s.data

/-- Byte-wise lexicographic strict comparison of character lists, matching
the Ord instance Rust uses on String for ASCII data. -/
def lexLtChars : List Char → List Char → Bool
  | [], [] => false
  | [], _ :: _ => true
  | _ :: _, [] => false
  | a :: as, b :: bs =>
    if a.toNat < b.toNat then true
    else if b.toNat < a.toNat then false
    else lexLtChars as bs

/-- Byte-wise lexicographic strict order on strings. -/
def strLt (a b : String) : Bool :=
  lexLtChars a.data b.data

/-! ## Semantic versions

Models the external semver crate used by the Rust code: the grammar of
major.minor.patch with optional pre-release and build-metadata suffixes,
its canonical printing, and semver precedence.  Build metadata takes part
in equality and printing (as in the crate) but not in precedence. -/

/-- Semantic version record as stored by the semver crate. -/
structure Version where
  major : Nat
  minor : Nat
  patch : Nat
  pre : String
  buildMeta : String
deriving DecidableEq, Repr

/-- Parse a numeric identifier: nonempty, all digits, no leading zero. -/
def parseNumIdent (l : List Char) : Option Nat :=
  if l ≠ [] ∧ l.all Char.isDigit ∧ (l = ['0'] ∨ l.head? ≠ some '0') then
    some (l.foldl (fun acc c => 10 * acc + (c.toNat - 48)) 0)
  else none

/-- Check a single pre-release identifier: nonempty, alphanumeric or
hyphen characters, and no leading zero when fully numeric. -/
def preIdentOk (l : List Char) : Bool :=
  l ≠ [] && l.all (fun c => c.isAlphanum || c = '-') &&
    (!(l.all Char.isDigit) || (parseNumIdent l).isSome)

/-- Check a full pre-release suffix: dot-separated valid identifiers. -/
def preOk (l : List Char) : Bool :=
  (splitChars '.' l).all preIdentOk

/-- Check a build-metadata suffix: dot-separated nonempty identifiers of
alphanumeric or hyphen characters (leading zeros allowed). -/
def buildMetaOk (l : List Char) : Bool :=
  (splitChars '.' l).all (fun i => i ≠ [] && i.all (fun c => c.isAlphanum || c = '-'))

/-- Parse the core part (everything before any build metadata): a dotted
numeric triple followed by an optional hyphen-introduced pre-release. -/
def parseCore (l : List Char) (bm : String) : Option Version :=
  let core := l.takeWhile (fun c => c ≠ '-')
  let rest := l.dropWhile (fun c => c ≠ '-')
  match splitChars '.' core with
  | [a, b, c] =>
    match parseNumIdent a, parseNumIdent b, parseNumIdent c with
    | some ma, some mb, some mc =>
      match rest with
      | [] => some ⟨ma, mb, mc, "", bm⟩
      | _ :: pr =>
        if pr ≠ [] ∧ preOk pr then some ⟨ma, mb, mc, String.mk pr, bm⟩ else none
    | _, _, _ => none
  | _ => none

/-- Parse a version string, mirroring semver::Version::parse on the
grammar the catalog uses: core, optional pre-release, optional build
metadata after a plus sign. -/
def parseVersion (s : String) : Option Version :=
  match splitChars '+' s.data with
  | [core] => parseCore core ""
  | [core, bm] => if buildMetaOk bm then parseCore core (String.mk bm) else none
  | _ => none

/-- Canonical printing of a version, mirroring semver's Display. -/
def versionToString (v : Version) : String :=
  Nat.repr v.major ++ "." ++ Nat.repr v.minor ++ "." ++ Nat.repr v.patch ++
    (if v.pre = "" then "" else "-" ++ v.pre) ++
    (if v.buildMeta = "" then "" else "+" ++ v.buildMeta)

/-- Strict order between two pre-release identifiers under semver
precedence: numeric identifiers compare numerically and are lower than
alphanumeric ones, alphanumeric identifiers compare lexically. -/
def preIdentLt (a b : List Char) : Bool :=
  match parseNumIdent a, parseNumIdent b with
  | some na, some nb => na < nb
  | some _, none => true
  | none, some _ => false
  | none, none => lexLtChars a b

/-- Strict order between two lists of pre-release identifiers: pointwise,
with a shorter prefix ranking lower. -/
def preListLt : List (List Char) → List (List Char) → Bool
  | [], [] => false
  | [], _ :: _ => true
  | _ :: _, [] => false
  | a :: as, b :: bs =>
    if preIdentLt a b then true
    else if preIdentLt b a then false
    else preListLt as bs

/-- Strict semantic-version precedence, mirroring semver's Ord: the
numeric triple first, then pre-release precedence where a version with a
pre-release ranks below the same triple without one. -/
def semverLt (v w : Version) : Bool :=
  if v.major ≠ w.major then v.major < w.major
  else if v.minor ≠ w.minor then v.minor < w.minor
  else if v.patch ≠ w.patch then v.patch < w.patch
  else if v.pre = "" then false
  else if w.pre = "" then true
  else preListLt (splitChars '.' v.pre.data) (splitChars '.' w.pre.data)

/-! ## Operating systems (src/environment.rs) -/

/-- Operating system enumeration from environment.rs. -/
inductive Os where
  | Macos
  | Windows
  | Linux
deriving DecidableEq, Repr

/-- Display string of an Os, from the Display impl in environment.rs. -/
def Os.toDisplay : Os → String
  | .Macos => "macos-latest"
  | .Windows => "windows-latest"
  | .Linux => "ubuntu-22.04"

/-- Parse an OS token, from the FromStr impl in environment.rs. -/
def Os.from_str (s : String) : Except String Os :=
  if s = "macos-latest" then .ok .Macos
  else if s = "windows-latest" then .ok .Windows
  else if s = "ubuntu-22.04" then .ok .Linux
  else .error "Invalid OS"

/-- Name of the runtime binary for an OS, from environment.rs. -/
def Os.ambient_bin_name : Os → String
  | .Windows => "ambient.exe"
  | _ => "ambient"

/-- Decide whether an Except value is an error. -/
def exceptIsError {ε α : Type} : Except ε α → Bool
  | .error _ => true
  | .ok _ => false

/-! ## Release trains and runtime versions (src/versions.rs) -/

/-- Release train classification buckets. -/
inductive ReleaseTrain where
  | Stable
  | Nightly
  | Internal
deriving DecidableEq, Repr

/-- Modelled from the spec: ReleaseTrain::from_version is referenced by
versions.rs but its defining module is not under src/.  Spec section 3:
Stable means no pre-release identifier, Nightly means the pre-release
identifier contains the literal token "nightly", Internal means any other
non-empty pre-release identifier. -/
def ReleaseTrain.from_version (v : Version) : ReleaseTrain :=
  if v.pre = "" then .Stable
  else if strContains v.pre "nightly" then .Nightly
  else .Internal

/-- One raw object returned by the artifact-store listing. -/
structure BucketItem where
  name : String
  mediaLink : String
deriving DecidableEq, Repr

/-- One downloadable artifact for one OS, from versions.rs. -/
structure Build where
  os : Os
  url : String
deriving DecidableEq, Repr

/-- A catalog version together with its per-OS builds, from versions.rs. -/
structure RuntimeVersion where
  version : Version
  builds : List Build
deriving DecidableEq, Repr

/-- RuntimeVersion::is_nightly from versions.rs. -/
def RuntimeVersion.is_nightly (rv : RuntimeVersion) : Bool :=
  ReleaseTrain.from_version rv.version = .Nightly

/-- RuntimeVersion::is_point_release from versions.rs. -/
def RuntimeVersion.is_point_release (rv : RuntimeVersion) : Bool :=
  ReleaseTrain.from_version rv.version = .Stable

/-- RuntimeVersion::is_public from versions.rs. -/
def RuntimeVersion.is_public (rv : RuntimeVersion) : Bool :=
  rv.is_point_release || rv.is_nightly

/-- The version-listing visibility filter from versions.rs. -/
structure VersionsFilter where
  include_private : Bool
  include_nightly : Bool
deriving DecidableEq, Repr

/-! ## The catalog pipeline (get_versions_with_prefix) -/

/-- version_from_path from versions.rs: the second slash-separated
segment of the object key, parsed as a semantic version. -/
def version_from_path (path : String) : Option Version :=
  ((splitStr '/' path).get? 1).bind parseVersion

/-- The per-item build extraction inside the grouping loop of
get_versions_with_prefix: the third slash-separated segment parsed as an
OS token, paired with the item's media link. -/
def buildOfItem (b : BucketItem) : Except String Build :=
  match (splitStr '/' b.name).get? 2 with
  | none => .error "Invalid build"
  | some tok =>
    match Os.from_str tok with
    | .error e => .error e
    | .ok os => .ok ⟨os, b.mediaLink⟩

/-- The filter_map step of get_versions_with_prefix: keep each item whose
key parses to a version, paired with that version; others are dropped. -/
def keptPairs (items : List BucketItem) : List (Version × BucketItem) :=
  items.filterMap (fun b => (version_from_path b.name).map (fun v => (v, b)))

/-- Itertools group_by as used in get_versions_with_prefix: consecutive
pairs with equal version key are collected into one group. -/
def groupRuns : List (Version × BucketItem) → List (Version × List BucketItem)
  | [] => []
  | (v, b) :: rest =>
    match groupRuns rest with
    | [] => [(v, [b])]
    | (w, bs) :: gs =>
      if v = w then (v, b :: bs) :: gs else (v, [b]) :: (w, bs) :: gs

/-- Collect the builds of one group, failing at the first item whose OS
token does not parse (the collect over Results in the source). -/
def buildsOf : List BucketItem → Except String (List Build)
  | [] => .ok []
  | b :: bs =>
    match buildOfItem b with
    | .error e => .error e
    | .ok bd =>
      match buildsOf bs with
      | .error e => .error e
      | .ok rest => .ok (bd :: rest)

/-- The grouping loop of get_versions_with_prefix: one RuntimeVersion per
group, aborting on the first group whose builds fail to parse. -/
def groupsToVersions : List (Version × List BucketItem) → Except String (List RuntimeVersion)
  | [] => .ok []
  | (v, bs) :: gs =>
    match buildsOf bs with
    | .error e => .error e
    | .ok builds =>
      match groupsToVersions gs with
      | .error e => .error e
      | .ok rest => .ok (⟨v, builds⟩ :: rest)

/-- Stable insertion of an element into a list sorted by a string key:
the element goes before the first entry whose key is not strictly
smaller, so earlier input elements keep priority among equal keys. -/
def insertByKey {α : Type} (key : α → String) (x : α) : List α → List α
  | [] => [x]
  | y :: ys =>
    if strLt (key y) (key x) then y :: insertByKey key x ys
    else x :: y :: ys

/-- Stable sort by a string key, modelling Vec::sort_by_key with the
String Ord instance used at the end of get_versions_with_prefix. -/
def sortByKey {α : Type} (key : α → String) : List α → List α
  | [] => []
  | x :: xs => insertByKey key x (sortByKey key xs)

/-- The two retain steps of get_versions_with_prefix: drop non-public
versions unless include_private, then drop nightlies unless
include_nightly. -/
def applyFilters (filter : VersionsFilter) (versions : List RuntimeVersion) :
    List RuntimeVersion :=
  let vs1 := if filter.include_private then versions
    else versions.filter (fun v => v.is_public)
  if filter.include_nightly then vs1
  else vs1.filter (fun v => !v.is_nightly)

/-- The pure core of get_versions_with_prefix, applied to the raw item
list the remote store returns: filter_map by parsed version, group
consecutive equal versions, build extraction, visibility filters, then
sort by the string representation of the version. -/
def get_versions_pure (items : List BucketItem) (filter : VersionsFilter) :
    Except String (List RuntimeVersion) :=
  match groupsToVersions (groupRuns (keptPairs items)) with
  | .error e => .error e
  | .ok versions =>
    .ok (sortByKey (fun rv => versionToString rv.version) (applyFilters filter versions))

/-- Modelled from the spec: the remote object-listing endpoint returns
exactly the object keys extending the requested path prefix inside the
builds namespace (spec section 6); the HTTP transport is elided by
passing the store's full key list explicitly. -/
def scopedItems (allItems : List BucketItem) (pfx : String) : List BucketItem :=
  allItems.filter (fun b => strStartsWith ("ambient-builds/" ++ pfx) b.name)

/-- get_versions_with_prefix from versions.rs over an explicit store. -/
def get_versions_scoped (allItems : List BucketItem) (pfx : String)
    (filter : VersionsFilter) : Except String (List RuntimeVersion) :=
  get_versions_pure (scopedItems allItems pfx) filter

/-- get_version from versions.rs: the listing scoped to the requested
version string with full visibility, taking the first element or failing
with the version-not-found error. -/
def get_version (allItems : List BucketItem) (s : String) :
    Except String RuntimeVersion :=
  match get_versions_scoped allItems s ⟨true, true⟩ with
  | .error e => .error e
  | .ok [] => .error "Version not found"
  | .ok (rv :: _) => .ok rv

/-! ## Installation (RuntimeVersion::install, RuntimeVersion::download)

The filesystem is a list of existing paths (each a list of components);
the network is an oracle from URLs to optionally served archives, where
serving none covers both transport failure and an undecodable payload. -/

/-- One entry of a downloaded zip archive. -/
structure ZipEntry where
  name : String
  content : String
deriving DecidableEq, Repr

/-- A decoded archive is its list of entries. -/
abbrev Archive := List ZipEntry

/-- RuntimeVersion::dir_path: the runtimes directory joined with the
canonical version string.  The runtimes directory itself comes from the
external directories crate and is abstracted as the base path. -/
def dir_path (base : List String) (v : Version) : List String :=
  base ++ [versionToString v]

/-- RuntimeVersion::exe_path: the version directory joined with the
current OS's binary name. -/
def exe_path (base : List String) (os : Os) (v : Version) : List String :=
  dir_path base v ++ [os.ambient_bin_name]

/-- RuntimeVersion::is_installed: an existence test on the expected
executable path. -/
def is_installed (base : List String) (os : Os) (fs : List (List String))
    (v : Version) : Bool :=
  decide (exe_path base os v ∈ fs)

/-- Result of RuntimeVersion::download: the URLs actually requested over
the network, and the served archive or the failure. -/
def downloadModel (os : Os) (oracle : String → Option Archive)
    (rv : RuntimeVersion) : List String × Except String Archive :=
  match rv.builds.find? (fun b => b.os == os) with
  | none => ([], .error "No build for this OS")
  | some b =>
    ([b.url],
      match oracle b.url with
      | none => .error "Download failed"
      | some a => .ok a)

/-- Modelled from the spec: zip::ZipArchive::extract is external library
code; per its documented behaviour every entry is placed at the target
directory joined with the entry's enclosed slash-separated path. -/
def extractEntries (dir : List String) (arch : Archive) : List (List String) :=
  arch.map (fun e => dir ++ splitStr '/' e.name)

/-- Outcome of one RuntimeVersion::install call: the resulting
filesystem, the network requests made, and success or the error. -/
structure InstallResult where
  fs : List (List String)
  requests : List String
  outcome : Except String Unit

/-- RuntimeVersion::install from versions.rs: return immediately when the
executable already exists, otherwise download the build for the current
OS, create the version directory and extract the archive into it. -/
def install (base : List String) (os : Os) (oracle : String → Option Archive)
    (fs : List (List String)) (rv : RuntimeVersion) : InstallResult :=
  if is_installed base os fs rv.version then ⟨fs, [], .ok ()⟩
  else
    match downloadModel os oracle rv with
    | (reqs, .error e) => ⟨fs, reqs, .error e⟩
    | (reqs, .ok arch) =>
      let dir := dir_path base rv.version
      ⟨(fs ++ [dir]) ++ extractEntries dir arch, reqs, .ok ()⟩

/-! ## The extraction loop of main.rs::download -/

/-- Check whether an entry name denotes a directory (trailing slash). -/
def endsWithSlash (s : String) : Bool :=
  s.data.getLast? = some '/'

/-- The file writes performed by the extraction loop in main.rs download
(lines 298 to 313): directory entries only ensure the output path's
directory exists, and every non-directory entry is written to the single
fixed output path, regardless of its entry name. -/
def mainExtractWrites (outpath : List String) : Archive → List (List String × String)
  | [] => []
  | e :: rest =>
    if endsWithSlash e.name then mainExtractWrites outpath rest
    else (outpath, e.content) :: mainExtractWrites outpath rest

/-! ## Exact requirement matching (spec section 4.3)

Modelled from the spec: matches_exact and the requirement comparators are
referenced by the spec but their defining module is not under src/. -/

/-- Comparison operator of a requirement comparator. -/
inductive CompOp where
  | ltOp
  | leOp
  | eqOp
  | geOp
  | gtOp
deriving DecidableEq, Repr

/-- One comparator of a version requirement: an operator, a numeric
triple, and an optional pre-release pin (empty string for none). -/
structure Comparator where
  op : CompOp
  major : Nat
  minor : Nat
  patch : Nat
  pre : String
deriving DecidableEq, Repr

/-- Strict lexicographic order on numeric triples. -/
def tripleLt (a b c x y z : Nat) : Bool :=
  decide (a < x ∨ (a = x ∧ (b < y ∨ (b = y ∧ c < z))))

/-- Modelled from the spec: the normal numeric comparison of a comparator
against a candidate version, on the major.minor.patch triples. -/
def numericHolds (cp : Comparator) (v : Version) : Bool :=
  match cp.op with
  | .ltOp => tripleLt v.major v.minor v.patch cp.major cp.minor cp.patch
  | .leOp => !tripleLt cp.major cp.minor cp.patch v.major v.minor v.patch
  | .eqOp => !tripleLt v.major v.minor v.patch cp.major cp.minor cp.patch &&
      !tripleLt cp.major cp.minor cp.patch v.major v.minor v.patch
  | .geOp => !tripleLt v.major v.minor v.patch cp.major cp.minor cp.patch
  | .gtOp => tripleLt cp.major cp.minor cp.patch v.major v.minor v.patch

/-- Modelled from the spec: one comparator under exact pre-release
semantics (spec section 4.3): if either the comparator or the candidate
carries a non-empty pre-release identifier, the comparator matches only
if the numeric comparison holds and the identifiers are equal strings;
otherwise the plain numeric range comparison applies. -/
def matchesComparatorExact (cp : Comparator) (v : Version) : Bool :=
  if cp.pre ≠ "" ∨ v.pre ≠ "" then numericHolds cp v && cp.pre == v.pre
  else numericHolds cp v

/-- Modelled from the spec: matches_exact requires every comparator of
the requirement to match under exact pre-release semantics. -/
def matches_exact (req : List Comparator) (v : Version) : Bool :=
  req.all (fun cp => matchesComparatorExact cp v)

end Ambient

namespace Ambient

/-! ## Supporting lemmas about the stable string-key sort -/

theorem lexLtChars_asymm (a b : List Char) (h : lexLtChars a b = true) :
    lexLtChars b a = false := by
  induction a generalizing b with
  | nil =>
    cases b with
    | nil => simp [lexLtChars] at h
    | cons c cs => simp [lexLtChars]
  | cons x xs ih =>
    cases b with
    | nil => simp [lexLtChars] at h
    | cons y ys =>
      unfold lexLtChars at h ⊢
      by_cases h1 : x.toNat < y.toNat
      · have h2 : ¬ y.toNat < x.toNat := by omega
        simp [h1, h2]
      · by_cases h2 : y.toNat < x.toNat
        · simp [h1, h2] at h
        · simp [h1, h2] at h ⊢
          exact ih ys h

theorem strLt_asymm (a b : String) (h : strLt a b = true) : strLt b a = false :=
  lexLtChars_asymm a.data b.data h

theorem chain'_insertByKey {α : Type} (key : α → String) (x : α) (l : List α)
    (h : List.Chain' (fun a b => strLt (key b) (key a) = false) l) :
    List.Chain' (fun a b => strLt (key b) (key a) = false) (insertByKey key x l) := by
  induction l with
  | nil => simp [insertByKey]
  | cons y ys ih =>
    unfold insertByKey
    by_cases hyx : strLt (key y) (key x) = true
    · simp only [hyx, if_true]
      have htail := ih h.tail
      cases ys with
      | nil =>
        simp only [insertByKey] at htail ⊢
        exact List.chain'_cons.mpr ⟨strLt_asymm _ _ hyx, List.chain'_singleton x⟩
      | cons z zs =>
        rw [List.chain'_cons] at h
        unfold insertByKey at htail ⊢
        by_cases hzx : strLt (key z) (key x) = true
        · simp only [hzx, if_true] at htail ⊢
          exact List.chain'_cons.mpr ⟨h.1, htail⟩
        · simp only [hzx, if_false, Bool.false_eq_true] at htail ⊢
          refine List.chain'_cons.mpr ⟨strLt_asymm _ _ hyx, htail⟩
    · have hyx' : strLt (key y) (key x) = false := by
        cases hb : strLt (key y) (key x) with
        | false => rfl
        | true => exact absurd hb hyx
      simp only [hyx', if_false, Bool.false_eq_true]
      exact List.chain'_cons.mpr ⟨hyx', h⟩

theorem chain'_sortByKey {α : Type} (key : α → String) (l : List α) :
    List.Chain' (fun a b => strLt (key b) (key a) = false) (sortByKey key l) := by
  induction l with
  | nil => simp [sortByKey]
  | cons x xs ih => exact chain'_insertByKey key x _ ih

theorem perm_insertByKey {α : Type} (key : α → String) (x : α) (l : List α) :
    List.Perm (insertByKey key x l) (x :: l) := by
  induction l with
  | nil => simp [insertByKey]
  | cons y ys ih =>
    unfold insertByKey
    by_cases h : strLt (key y) (key x) = true
    · simp only [h, if_true]
      exact (ih.cons y).trans (List.Perm.swap x y ys)
    · simp [h]

theorem perm_sortByKey {α : Type} (key : α → String) (l : List α) :
    List.Perm (sortByKey key l) l := by
  induction l with
  | nil => simp [sortByKey]
  | cons x xs ih =>
    exact (perm_insertByKey key x (sortByKey key xs)).trans (ih.cons x)

theorem mem_of_mem_sortByKey {α : Type} {key : α → String} {x : α} {l : List α}
    (h : x ∈ sortByKey key l) : x ∈ l :=
  (perm_sortByKey key l).mem_iff.mp h

/-- Destruct a successful run of the pure listing into its pipeline
stages. -/
theorem get_versions_pure_ok {items : List BucketItem} {f : VersionsFilter}
    {rvs : List RuntimeVersion} (h : get_versions_pure items f = .ok rvs) :
    ∃ base, groupsToVersions (groupRuns (keptPairs items)) = .ok base ∧
      rvs = sortByKey (fun rv => versionToString rv.version) (applyFilters f base) := by
  unfold get_versions_pure at h
  cases hg : groupsToVersions (groupRuns (keptPairs items)) with
  | error e => rw [hg] at h; exact absurd h (by simp)
  | ok base =>
    rw [hg] at h
    simp only [Except.ok.injEq] at h
    exact ⟨base, rfl, h.symm⟩

/-! ## Supporting lemmas about grouping and the listing pipeline -/

theorem groupRuns_nonempty (ps : List (Version × BucketItem)) :
    ∀ g ∈ groupRuns ps, g.2 ≠ [] := by
  induction ps with
  | nil => intro g hg; simp [groupRuns] at hg
  | cons p rest ih =>
    obtain ⟨v, b⟩ := p
    intro g hg
    unfold groupRuns at hg
    cases hr : groupRuns rest with
    | nil =>
      rw [hr] at hg
      simp only [List.mem_singleton] at hg
      subst hg; simp
    | cons q gs =>
      obtain ⟨w, bs⟩ := q
      rw [hr] at hg
      dsimp only at hg
      by_cases hvw : v = w
      · rw [if_pos hvw] at hg
        rcases List.mem_cons.mp hg with h1 | h1
        · subst h1; simp
        · exact ih g (hr ▸ List.mem_cons_of_mem _ h1)
      · rw [if_neg hvw] at hg
        rcases List.mem_cons.mp hg with h1 | h1
        · subst h1; simp
        · exact ih g (hr ▸ h1)

theorem groupRuns_key_mem (ps : List (Version × BucketItem)) :
    ∀ g ∈ groupRuns ps, ∃ p ∈ ps, p.1 = g.1 := by
  induction ps with
  | nil => intro g hg; simp [groupRuns] at hg
  | cons p rest ih =>
    obtain ⟨v, b⟩ := p
    intro g hg
    unfold groupRuns at hg
    cases hr : groupRuns rest with
    | nil =>
      rw [hr] at hg
      simp only [List.mem_singleton] at hg
      subst hg
      exact ⟨(v, b), List.mem_cons_self _ _, rfl⟩
    | cons q gs =>
      obtain ⟨w, bs⟩ := q
      rw [hr] at hg
      dsimp only at hg
      by_cases hvw : v = w
      · rw [if_pos hvw] at hg
        rcases List.mem_cons.mp hg with h1 | h1
        · subst h1
          exact ⟨(v, b), List.mem_cons_self _ _, rfl⟩
        · obtain ⟨p, hp, hpe⟩ := ih g (hr ▸ List.mem_cons_of_mem _ h1)
          exact ⟨p, List.mem_cons_of_mem _ hp, hpe⟩
      · rw [if_neg hvw] at hg
        rcases List.mem_cons.mp hg with h1 | h1
        · subst h1
          exact ⟨(v, b), List.mem_cons_self _ _, rfl⟩
        · obtain ⟨p, hp, hpe⟩ := ih g (hr ▸ h1)
          exact ⟨p, List.mem_cons_of_mem _ hp, hpe⟩

theorem groupRuns_item_mem (ps : List (Version × BucketItem)) :
    ∀ p ∈ ps, ∃ g ∈ groupRuns ps, p.2 ∈ g.2 := by
  induction ps with
  | nil => intro p hp; simp at hp
  | cons q rest ih =>
    obtain ⟨v, b⟩ := q
    intro p hp
    unfold groupRuns
    cases hr : groupRuns rest with
    | nil =>
      rcases List.mem_cons.mp hp with h1 | h1
      · subst h1
        exact ⟨(v, [b]), List.mem_singleton.mpr rfl, by simp⟩
      · obtain ⟨g, hg, _⟩ := ih p h1
        rw [hr] at hg
        simp at hg
    | cons q0 gs =>
      obtain ⟨w, bs⟩ := q0
      dsimp only
      rcases List.mem_cons.mp hp with h1 | h1
      · subst h1
        by_cases hvw : v = w
        · rw [if_pos hvw]
          exact ⟨(v, b :: bs), List.mem_cons_self _ _, by simp⟩
        · rw [if_neg hvw]
          exact ⟨(v, [b]), List.mem_cons_self _ _, by simp⟩
      · obtain ⟨g, hg, hpg⟩ := ih p h1
        rw [hr] at hg
        by_cases hvw : v = w
        · rw [if_pos hvw]
          rcases List.mem_cons.mp hg with h2 | h2
          · subst h2
            exact ⟨(v, b :: bs), List.mem_cons_self _ _, List.mem_cons_of_mem _ hpg⟩
          · exact ⟨g, List.mem_cons_of_mem _ h2, hpg⟩
        · rw [if_neg hvw]
          exact ⟨g, List.mem_cons_of_mem _ hg, hpg⟩

theorem groupRuns_keys_join (ps : List (Version × BucketItem)) :
    ps.map Prod.fst =
      (groupRuns ps).flatMap (fun g => g.2.map (fun _ => g.1)) := by
  induction ps with
  | nil => simp [groupRuns]
  | cons p rest ih =>
    obtain ⟨v, b⟩ := p
    unfold groupRuns
    cases hr : groupRuns rest with
    | nil =>
      rw [hr] at ih
      have hrest : rest = [] := by
        cases rest with
        | nil => rfl
        | cons x xs => exact absurd ih (by simp)
      subst hrest
      rfl
    | cons q gs =>
      obtain ⟨w, bs⟩ := q
      rw [hr] at ih
      dsimp only
      by_cases hvw : v = w
      · rw [if_pos hvw]
        subst hvw
        rw [List.map_cons, ih]
        rfl
      · rw [if_neg hvw]
        rw [List.map_cons, ih]
        rfl

theorem buildsOf_error (bs : List BucketItem) (b : BucketItem) (hb : b ∈ bs)
    (he : exceptIsError (buildOfItem b) = true) :
    exceptIsError (buildsOf bs) = true := by
  induction bs with
  | nil => simp at hb
  | cons x xs ih =>
    unfold buildsOf
    rcases List.mem_cons.mp hb with h1 | h1
    · subst h1
      cases hx : buildOfItem b with
      | error e => rfl
      | ok bd => rw [hx] at he; simp [exceptIsError] at he
    · cases hx : buildOfItem x with
      | error e => rfl
      | ok bd =>
        cases hr : buildsOf xs with
        | error e => rfl
        | ok rest =>
          have := ih h1
          rw [hr] at this
          simp [exceptIsError] at this

theorem groupsToVersions_error (gs : List (Version × List BucketItem))
    (g : Version × List BucketItem) (hg : g ∈ gs)
    (he : exceptIsError (buildsOf g.2) = true) :
    exceptIsError (groupsToVersions gs) = true := by
  induction gs with
  | nil => simp at hg
  | cons x xs ih =>
    obtain ⟨v, bs⟩ := x
    unfold groupsToVersions
    rcases List.mem_cons.mp hg with h1 | h1
    · cases hx : buildsOf bs with
      | error e => rfl
      | ok builds =>
        rw [h1] at he
        simp only at he
        rw [hx] at he
        simp [exceptIsError] at he
    · cases hx : buildsOf bs with
      | error e => rfl
      | ok builds =>
        cases hr : groupsToVersions xs with
        | error e => rfl
        | ok rest =>
          have := ih h1
          rw [hr] at this
          simp [exceptIsError] at this

theorem groupsToVersions_ok_versions (gs : List (Version × List BucketItem))
    (rvs : List RuntimeVersion) (h : groupsToVersions gs = .ok rvs) :
    rvs.map (fun rv => rv.version) = gs.map Prod.fst := by
  induction gs generalizing rvs with
  | nil =>
    unfold groupsToVersions at h
    simp only [Except.ok.injEq] at h
    subst h; rfl
  | cons x xs ih =>
    obtain ⟨v, bs⟩ := x
    unfold groupsToVersions at h
    cases hx : buildsOf bs with
    | error e => rw [hx] at h; exact absurd h (by simp)
    | ok builds =>
      rw [hx] at h
      cases hr : groupsToVersions xs with
      | error e => rw [hr] at h; exact absurd h (by simp)
      | ok rest =>
        rw [hr] at h
        simp only [Except.ok.injEq] at h
        subst h
        simp only [List.map_cons]
        rw [ih rest hr]

theorem groupsToVersions_mem (gs : List (Version × List BucketItem))
    (rvs : List RuntimeVersion) (rv : RuntimeVersion)
    (h : groupsToVersions gs = .ok rvs) (hm : rv ∈ rvs) :
    ∃ g ∈ gs, g.1 = rv.version := by
  have := groupsToVersions_ok_versions gs rvs h
  have hv : rv.version ∈ gs.map Prod.fst := by
    rw [← this]
    exact List.mem_map.mpr ⟨rv, hm, rfl⟩
  obtain ⟨g, hg, he⟩ := List.mem_map.mp hv
  exact ⟨g, hg, he⟩

theorem keptPairs_mem (items : List BucketItem) (p : Version × BucketItem)
    (h : p ∈ keptPairs items) :
    p.2 ∈ items ∧ version_from_path p.2.name = some p.1 := by
  unfold keptPairs at h
  obtain ⟨b, hb, he⟩ := List.mem_filterMap.mp h
  cases hv : version_from_path b.name with
  | none => rw [hv] at he; simp at he
  | some v =>
    rw [hv] at he
    simp only [Option.map_some', Option.some.injEq] at he
    subst he
    exact ⟨hb, hv⟩

theorem keptPairs_pair_mem (items : List BucketItem) (b : BucketItem) (v : Version)
    (hb : b ∈ items) (hv : version_from_path b.name = some v) :
    (v, b) ∈ keptPairs items := by
  unfold keptPairs
  exact List.mem_filterMap.mpr ⟨b, hb, by rw [hv]; rfl⟩

theorem applyFilters_sublist (f : VersionsFilter) (vs : List RuntimeVersion) :
    List.Sublist (applyFilters f vs) vs := by
  unfold applyFilters
  by_cases hp : f.include_private = true
  · simp only [hp, if_true]
    by_cases hn : f.include_nightly = true
    · simp [hn]
    · simp only [hn, if_false, Bool.false_eq_true]
      exact List.filter_sublist vs
  · simp only [hp, if_false, Bool.false_eq_true]
    by_cases hn : f.include_nightly = true
    · simp only [hn, if_true]
      exact List.filter_sublist vs
    · simp only [hn, if_false, Bool.false_eq_true]
      exact (List.filter_sublist _).trans (List.filter_sublist vs)

theorem applyFilters_mem_public (f : VersionsFilter) (vs : List RuntimeVersion)
    (rv : RuntimeVersion) (hp : f.include_private = false)
    (h : rv ∈ applyFilters f vs) : rv.is_public = true := by
  unfold applyFilters at h
  rw [hp] at h
  simp only [Bool.false_eq_true, if_false] at h
  by_cases hn : f.include_nightly = true
  · rw [hn] at h
    simp only [if_true] at h
    exact (List.mem_filter.mp h).2
  · have hn' : f.include_nightly = false := by
      cases hb : f.include_nightly with
      | false => rfl
      | true => exact absurd hb hn
    rw [hn'] at h
    simp only [Bool.false_eq_true, if_false] at h
    exact (List.mem_filter.mp (List.mem_filter.mp h).1).2

theorem applyFilters_mem_not_nightly (f : VersionsFilter) (vs : List RuntimeVersion)
    (rv : RuntimeVersion) (hn : f.include_nightly = false)
    (h : rv ∈ applyFilters f vs) : rv.is_nightly = false := by
  unfold applyFilters at h
  rw [hn] at h
  simp only [Bool.false_eq_true, if_false] at h
  have := (List.mem_filter.mp h).2
  simpa using this

theorem groupRuns_keys_nodup (ps : List (Version × BucketItem))
    (hAdj : ∀ a b : Version, a ≠ b → ¬ List.Sublist [a, b, a] (ps.map Prod.fst)) :
    ((groupRuns ps).map Prod.fst).Nodup := by
  induction ps with
  | nil => simp [groupRuns]
  | cons p rest ih =>
    obtain ⟨v, b⟩ := p
    have hAdj' : ∀ a b : Version, a ≠ b →
        ¬ List.Sublist [a, b, a] (rest.map Prod.fst) := by
      intro a c hne hs
      exact hAdj a c hne (hs.trans (List.sublist_cons_self _ _))
    unfold groupRuns
    cases hr : groupRuns rest with
    | nil => simp
    | cons q gs =>
      obtain ⟨w, bs⟩ := q
      have hnd := ih hAdj'
      rw [hr] at hnd
      dsimp only
      by_cases hvw : v = w
      · rw [if_pos hvw]
        simp only [List.map_cons] at hnd ⊢
        subst hvw
        exact hnd
      · rw [if_neg hvw]
        simp only [List.map_cons] at hnd ⊢
        refine List.nodup_cons.mpr ⟨?_, hnd⟩
        intro hvmem
        rcases List.mem_cons.mp hvmem with h1 | h1
        · exact hvw h1
        · obtain ⟨g, hg, hge⟩ := List.mem_map.mp h1
          have hbs : bs ≠ [] :=
            groupRuns_nonempty rest (w, bs) (hr ▸ List.mem_cons_self _ _)
          have hgne : g.2 ≠ [] :=
            groupRuns_nonempty rest g (hr ▸ List.mem_cons_of_mem _ hg)
          have hw : w ∈ bs.map (fun _ => (w, bs).1) := by
            cases bs with
            | nil => exact absurd rfl hbs
            | cons x xs => simp
          have hv2 : v ∈ gs.flatMap (fun g => g.2.map (fun _ => g.1)) := by
            refine List.mem_flatMap.mpr ⟨g, hg, ?_⟩
            cases hgl : g.2 with
            | nil => exact absurd hgl hgne
            | cons x xs => simp [hge]
          have hsub : List.Sublist [w, v] (rest.map Prod.fst) := by
            rw [groupRuns_keys_join rest, hr]
            have h1s : List.Sublist [w] (bs.map (fun _ => (w, bs).1)) :=
              List.singleton_sublist.mpr hw
            have h2s : List.Sublist [v] (gs.flatMap (fun g => g.2.map (fun _ => g.1))) :=
              List.singleton_sublist.mpr hv2
            exact h1s.append h2s
          have hfin : List.Sublist [v, w, v] ((v, b) :: rest |>.map Prod.fst) := by
            simp only [List.map_cons]
            exact hsub.cons₂ v
          exact hAdj v w hvw hfin

/-- C10: the Os token encoding round-trips: parsing the display string of
every Os yields that Os back, and parsing succeeds exactly on the three
display strings, failing on every other input. -/
theorem os_roundtrip :
    (∀ os : Os, Os.from_str os.toDisplay = .ok os) ∧
    (∀ s : String,
      (exceptIsError (Os.from_str s) = false ↔
        s = "macos-latest" ∨ s = "windows-latest" ∨ s = "ubuntu-22.04")) := by
  constructor
  · intro os; cases os <;> rfl
  · intro s
    unfold Os.from_str exceptIsError
    by_cases h1 : s = "macos-latest"
    · simp [h1]
    · by_cases h2 : s = "windows-latest"
      · simp [h2]
      · by_cases h3 : s = "ubuntu-22.04"
        · simp [h3]
        · simp [h1, h2, h3]

/-- C1 counterexample: for a catalog holding 0.9.0 and 0.10.0 the listing
returns the list with 0.10.0 first, although 0.9.0 precedes 0.10.0 in
semantic version order; the result is not sorted ascending semantically
and its last element 0.9.0 is not the semantically greatest version. -/
theorem catalog_sort_counterexample :
    get_versions_pure
      [⟨"ambient-builds/0.10.0/ubuntu-22.04/ambient.zip", "u1"⟩,
       ⟨"ambient-builds/0.9.0/ubuntu-22.04/ambient.zip", "u2"⟩] ⟨true, true⟩ =
      .ok [⟨⟨0, 10, 0, "", ""⟩, [⟨.Linux, "u1"⟩]⟩,
           ⟨⟨0, 9, 0, "", ""⟩, [⟨.Linux, "u2"⟩]⟩] ∧
    semverLt ⟨0, 9, 0, "", ""⟩ ⟨0, 10, 0, "", ""⟩ = true :=
  ⟨rfl, rfl⟩

/-- C1 amended: every successful catalog listing is sorted ascending by
the byte-lexicographic order of the versions' canonical string
representations (so the last element is the lexicographically greatest
string, not necessarily the semantically greatest version). -/
theorem catalog_sorted_by_string (items : List BucketItem) (f : VersionsFilter)
    (rvs : List RuntimeVersion) (h : get_versions_pure items f = .ok rvs) :
    List.Chain'
      (fun a b => strLt (versionToString b.version) (versionToString a.version) = false)
      rvs := by
  obtain ⟨base, _, hs⟩ := get_versions_pure_ok h
  rw [hs]
  exact chain'_sortByKey _ _

/-- C1 amended, witnessed at the two-version catalog of the
counterexample. -/
theorem catalog_sorted_by_string_witness :
    List.Chain'
      (fun a b => strLt (versionToString b.version) (versionToString a.version) = false)
      [(⟨⟨0, 10, 0, "", ""⟩, [⟨.Linux, "u1"⟩]⟩ : RuntimeVersion),
       ⟨⟨0, 9, 0, "", ""⟩, [⟨.Linux, "u2"⟩]⟩] :=
  catalog_sorted_by_string
    [⟨"ambient-builds/0.10.0/ubuntu-22.04/ambient.zip", "u1"⟩,
     ⟨"ambient-builds/0.9.0/ubuntu-22.04/ambient.zip", "u2"⟩] ⟨true, true⟩ _ rfl

/-- C4: under exact pre-release semantics a comparator with a pre-release
on either side matches only when the numeric comparison holds and the two
pre-release identifiers agree; hence a requirement pinned to one
identifier never matches a version with a different identifier. -/
theorem matches_exact_pre_rules :
    (∀ (cp : Comparator) (v : Version), (cp.pre ≠ "" ∨ v.pre ≠ "") →
      (matchesComparatorExact cp v = true ↔
        numericHolds cp v = true ∧ cp.pre = v.pre)) ∧
    (∀ v1 v2 : Version, v1.pre ≠ v2.pre →
      matches_exact [⟨.geOp, 0, 0, 0, v1.pre⟩] v2 = false) := by
  constructor
  · intro cp v h
    unfold matchesComparatorExact
    simp only [h, if_true, Bool.and_eq_true, beq_iff_eq]
  · intro v1 v2 hne
    unfold matches_exact
    simp only [List.all_cons, List.all_nil, Bool.and_true]
    unfold matchesComparatorExact
    have hcond : v1.pre ≠ "" ∨ v2.pre ≠ "" := by
      by_cases h1 : v1.pre = ""
      · exact Or.inr (fun hc => hne (h1.trans hc.symm))
      · exact Or.inl h1
    rw [if_pos hcond]
    have hbeq : (v1.pre == v2.pre) = false := by
      simp only [beq_eq_false_iff_ne, ne_eq]
      exact hne
    simp [hbeq]

/-- C4, witnessed: the pinned requirement on identifier alpha rejects a
version carrying identifier beta. -/
theorem matches_exact_pre_rules_witness :
    matches_exact [⟨.geOp, 0, 0, 0, "alpha"⟩] ⟨1, 0, 0, "beta", ""⟩ = false :=
  matches_exact_pre_rules.2 ⟨0, 0, 0, "alpha", ""⟩ ⟨1, 0, 0, "beta", ""⟩ (by decide)

theorem ambient_bin_name_split (os : Os) :
    splitStr '/' os.ambient_bin_name = [os.ambient_bin_name] := by
  cases os <;> rfl

theorem downloadModel_ok {os : Os} {oracle : String → Option Archive}
    {rv : RuntimeVersion} {reqs : List String} {arch : Archive}
    (h : downloadModel os oracle rv = (reqs, .ok arch)) :
    ∃ b, rv.builds.find? (fun x => x.os == os) = some b ∧
      oracle b.url = some arch := by
  unfold downloadModel at h
  split at h
  · exact absurd h (by simp)
  · next b hf =>
    cases ho : oracle b.url with
    | none => rw [ho] at h; exact absurd h (by simp)
    | some a =>
      rw [ho] at h
      simp only [Prod.mk.injEq, Except.ok.injEq] at h
      exact ⟨b, hf, by rw [ho, h.2]⟩

/-- C5: installation is idempotent: whenever the expected executable path
already exists on disk, install returns success immediately with the
filesystem unchanged and no network request; and re-running install after
a successful install (against a store whose archives contain the binary)
is such a no-op, so the executable path handed back is unchanged. -/
theorem install_idempotent :
    (∀ (base : List String) (os : Os) (oracle : String → Option Archive)
        (fs : List (List String)) (rv : RuntimeVersion),
      is_installed base os fs rv.version = true →
      install base os oracle fs rv = ⟨fs, [], .ok ()⟩) ∧
    (∀ (base : List String) (os : Os) (oracle : String → Option Archive)
        (fs : List (List String)) (rv : RuntimeVersion),
      (∀ url a, oracle url = some a → ∃ e ∈ a, e.name = os.ambient_bin_name) →
      (install base os oracle fs rv).outcome = .ok () →
      install base os oracle (install base os oracle fs rv).fs rv =
        ⟨(install base os oracle fs rv).fs, [], .ok ()⟩) := by
  have noop : ∀ (base : List String) (os : Os) (oracle : String → Option Archive)
      (fs : List (List String)) (rv : RuntimeVersion),
      is_installed base os fs rv.version = true →
      install base os oracle fs rv = ⟨fs, [], .ok ()⟩ := by
    intro base os oracle fs rv h
    unfold install
    rw [if_pos h]
  refine ⟨noop, ?_⟩
  intro base os oracle fs rv horacle hout
  by_cases hin : is_installed base os fs rv.version = true
  · rw [noop base os oracle fs rv hin]
    exact noop base os oracle fs rv hin
  · unfold install at hout
    rw [if_neg hin] at hout
    cases hd : downloadModel os oracle rv with
    | mk reqs res =>
      rw [hd] at hout
      cases res with
      | error e => exact absurd hout (by simp)
      | ok arch =>
        have hr : install base os oracle fs rv =
            ⟨fs ++ [dir_path base rv.version] ++
              extractEntries (dir_path base rv.version) arch, reqs, .ok ()⟩ := by
          unfold install
          rw [if_neg hin, hd]
        rw [hr]
        obtain ⟨b, _, hor⟩ := downloadModel_ok hd
        obtain ⟨e, he, hname⟩ := horacle b.url arch hor
        apply noop
        unfold is_installed
        simp only [decide_eq_true_eq]
        unfold exe_path
        apply List.mem_append_right
        unfold extractEntries
        refine List.mem_map.mpr ⟨e, he, ?_⟩
        rw [hname, ambient_bin_name_split]

/-- C5, witnessed: with the executable already on disk, install leaves the
state untouched and makes no request, and a second call is the same
no-op. -/
theorem install_idempotent_witness :
    install ["rt"] .Linux (fun _ => none)
      [["rt", "1.0.0", "ambient"]] ⟨⟨1, 0, 0, "", ""⟩, []⟩ =
      ⟨[["rt", "1.0.0", "ambient"]], [], .ok ()⟩ ∧
    install ["rt"] .Linux (fun _ => none)
        (install ["rt"] .Linux (fun _ => none)
          [["rt", "1.0.0", "ambient"]] ⟨⟨1, 0, 0, "", ""⟩, []⟩).fs
        ⟨⟨1, 0, 0, "", ""⟩, []⟩ =
      ⟨(install ["rt"] .Linux (fun _ => none)
          [["rt", "1.0.0", "ambient"]] ⟨⟨1, 0, 0, "", ""⟩, []⟩).fs, [], .ok ()⟩ :=
  ⟨install_idempotent.1 ["rt"] .Linux (fun _ => none)
      [["rt", "1.0.0", "ambient"]] ⟨⟨1, 0, 0, "", ""⟩, []⟩ rfl,
   install_idempotent.2 ["rt"] .Linux (fun _ => none)
      [["rt", "1.0.0", "ambient"]] ⟨⟨1, 0, 0, "", ""⟩, []⟩
      (fun _ _ h => Option.noConfusion h) rfl⟩

/-- C8: when no build of a RuntimeVersion targets the current OS the
download step fails with the no-build error while performing no network
request at all, and whenever a build is selected it is one whose OS
equals the current OS (no cross-OS fallback). -/
theorem download_no_build_for_os :
    (∀ (os : Os) (oracle : String → Option Archive) (rv : RuntimeVersion),
      (∀ b ∈ rv.builds, b.os ≠ os) →
      downloadModel os oracle rv = ([], .error "No build for this OS")) ∧
    (∀ (os : Os) (rv : RuntimeVersion) (b : Build),
      rv.builds.find? (fun x => x.os == os) = some b → b.os = os) := by
  constructor
  · intro os oracle rv h
    unfold downloadModel
    have hn : rv.builds.find? (fun x => x.os == os) = none := by
      rw [List.find?_eq_none]
      intro x hx
      simp only [beq_iff_eq]
      exact h x hx
    rw [hn]
  · intro os rv b h
    have := List.find?_some h
    simpa [beq_iff_eq] using this

/-- C8, witnessed: a version with only a Windows build fails on Linux
without touching the network. -/
theorem download_no_build_for_os_witness :
    downloadModel .Linux (fun _ => none) ⟨⟨1, 0, 0, "", ""⟩, [⟨.Windows, "u"⟩]⟩ =
      ([], .error "No build for this OS") :=
  download_no_build_for_os.1 .Linux (fun _ => none)
    ⟨⟨1, 0, 0, "", ""⟩, [⟨.Windows, "u"⟩]⟩ (by decide)

/-- C9 counterexample: extracting an archive with two distinct file
entries through the loop in main.rs download writes both entries to the
same single output path, the second write overwriting the first, instead
of producing two files at the entry-encoded relative paths. -/
theorem extract_single_output_counterexample :
    mainExtractWrites ["home", ".ambient", "ambient-0-2-1"]
      [⟨"bin/ambient", "x"⟩, ⟨"assets/readme", "y"⟩] =
      [(["home", ".ambient", "ambient-0-2-1"], "x"),
       (["home", ".ambient", "ambient-0-2-1"], "y")] ∧
    ¬ (List.map Prod.fst
        [((["home", ".ambient", "ambient-0-2-1"] : List String), "x"),
         (["home", ".ambient", "ambient-0-2-1"], "y")]).Nodup :=
  ⟨rfl, by decide⟩

/-- C3: the catalog visibility filter drops every version that is not
public (a non-empty pre-release not containing the nightly token) when
include_private is false, drops every nightly version when
include_nightly is false, and in particular a catalog holding 0.1.0, a
nightly 0.2.0 and an internal 0.2.0 filtered with both flags false
returns only 0.1.0. -/
theorem visibility_filter_correct :
    (∀ (items : List BucketItem) (f : VersionsFilter) (rvs : List RuntimeVersion),
      f.include_private = false → get_versions_pure items f = .ok rvs →
      ∀ rv ∈ rvs, rv.is_public = true) ∧
    (∀ (items : List BucketItem) (f : VersionsFilter) (rvs : List RuntimeVersion),
      f.include_nightly = false → get_versions_pure items f = .ok rvs →
      ∀ rv ∈ rvs, rv.is_nightly = false) ∧
    get_versions_pure
      [⟨"ambient-builds/0.1.0/ubuntu-22.04/a.zip", "u1"⟩,
       ⟨"ambient-builds/0.2.0-nightly-2023-01-01/ubuntu-22.04/b.zip", "u2"⟩,
       ⟨"ambient-builds/0.2.0-internal-x/ubuntu-22.04/c.zip", "u3"⟩] ⟨false, false⟩ =
      .ok [⟨⟨0, 1, 0, "", ""⟩, [⟨.Linux, "u1"⟩]⟩] := by
  refine ⟨?_, ?_, rfl⟩
  · intro items f rvs hp h rv hm
    obtain ⟨base, _, hs⟩ := get_versions_pure_ok h
    rw [hs] at hm
    exact applyFilters_mem_public f base rv hp (mem_of_mem_sortByKey hm)
  · intro items f rvs hn h rv hm
    obtain ⟨base, _, hs⟩ := get_versions_pure_ok h
    rw [hs] at hm
    exact applyFilters_mem_not_nightly f base rv hn (mem_of_mem_sortByKey hm)

/-- C3, witnessed: the single survivor of the filtered example catalog is
indeed public and not nightly. -/
theorem visibility_filter_correct_witness :
    RuntimeVersion.is_public ⟨⟨0, 1, 0, "", ""⟩, [⟨.Linux, "u1"⟩]⟩ = true ∧
    RuntimeVersion.is_nightly ⟨⟨0, 1, 0, "", ""⟩, [⟨.Linux, "u1"⟩]⟩ = false :=
  ⟨visibility_filter_correct.1
      [⟨"ambient-builds/0.1.0/ubuntu-22.04/a.zip", "u1"⟩,
       ⟨"ambient-builds/0.2.0-nightly-2023-01-01/ubuntu-22.04/b.zip", "u2"⟩,
       ⟨"ambient-builds/0.2.0-internal-x/ubuntu-22.04/c.zip", "u3"⟩]
      ⟨false, false⟩ [⟨⟨0, 1, 0, "", ""⟩, [⟨.Linux, "u1"⟩]⟩] rfl rfl
      ⟨⟨0, 1, 0, "", ""⟩, [⟨.Linux, "u1"⟩]⟩ (List.mem_singleton.mpr rfl),
   visibility_filter_correct.2.1
      [⟨"ambient-builds/0.1.0/ubuntu-22.04/a.zip", "u1"⟩,
       ⟨"ambient-builds/0.2.0-nightly-2023-01-01/ubuntu-22.04/b.zip", "u2"⟩,
       ⟨"ambient-builds/0.2.0-internal-x/ubuntu-22.04/c.zip", "u3"⟩]
      ⟨false, false⟩ [⟨⟨0, 1, 0, "", ""⟩, [⟨.Linux, "u1"⟩]⟩] rfl rfl
      ⟨⟨0, 1, 0, "", ""⟩, [⟨.Linux, "u1"⟩]⟩ (List.mem_singleton.mpr rfl)⟩

/-- C6: an object key whose embedded version segment does not parse is
silently discarded, leaving the listing result unchanged; while a kept
key whose embedded OS token is none of the three recognized tokens makes
the whole listing call fail with an error. -/
theorem listing_error_handling :
    (∀ (f : VersionsFilter) (l1 l2 : List BucketItem) (bad : BucketItem),
      version_from_path bad.name = none →
      get_versions_pure (l1 ++ bad :: l2) f = get_versions_pure (l1 ++ l2) f) ∧
    (∀ (f : VersionsFilter) (items : List BucketItem) (b : BucketItem) (tok : String),
      b ∈ items → (version_from_path b.name).isSome = true →
      (splitStr '/' b.name).get? 2 = some tok →
      tok ≠ "macos-latest" → tok ≠ "windows-latest" → tok ≠ "ubuntu-22.04" →
      exceptIsError (get_versions_pure items f) = true) := by
  constructor
  · intro f l1 l2 bad hbad
    have hkept : keptPairs (l1 ++ bad :: l2) = keptPairs (l1 ++ l2) := by
      unfold keptPairs
      rw [List.filterMap_append, List.filterMap_append, List.filterMap_cons]
      rw [hbad]
      rfl
    unfold get_versions_pure
    rw [hkept]
  · intro f items b tok hb hv htok h1 h2 h3
    obtain ⟨v, hv'⟩ := Option.isSome_iff_exists.mp hv
    have hpair : (v, b) ∈ keptPairs items := keptPairs_pair_mem items b v hb hv'
    obtain ⟨g, hg, hbg⟩ := groupRuns_item_mem (keptPairs items) (v, b) hpair
    have hbuild : exceptIsError (buildOfItem b) = true := by
      unfold buildOfItem
      rw [htok]
      dsimp only
      unfold Os.from_str
      rw [if_neg h1, if_neg h2, if_neg h3]
      rfl
    have hbs : exceptIsError (buildsOf g.2) = true :=
      buildsOf_error g.2 b hbg hbuild
    have hgv : exceptIsError (groupsToVersions (groupRuns (keptPairs items))) = true :=
      groupsToVersions_error _ g hg hbs
    unfold get_versions_pure
    cases hres : groupsToVersions (groupRuns (keptPairs items)) with
    | error e => rfl
    | ok base => rw [hres] at hgv; simp [exceptIsError] at hgv

/-- C6, witnessed: an index page key is dropped without affecting the
listing, and a key with an unrecognized OS token fails the call. -/
theorem listing_error_handling_witness :
    get_versions_pure
        ([] ++ (⟨"ambient-builds/index.html", "u0"⟩ : BucketItem) :: []) ⟨true, true⟩ =
      get_versions_pure ([] ++ []) ⟨true, true⟩ ∧
    exceptIsError (get_versions_pure
        [⟨"ambient-builds/0.1.0/bados/b.zip", "u"⟩] ⟨true, true⟩) = true :=
  ⟨listing_error_handling.1 ⟨true, true⟩ [] [] ⟨"ambient-builds/index.html", "u0"⟩ rfl,
   listing_error_handling.2 ⟨true, true⟩ [⟨"ambient-builds/0.1.0/bados/b.zip", "u"⟩]
      ⟨"ambient-builds/0.1.0/bados/b.zip", "u"⟩ "bados"
      (List.mem_singleton.mpr rfl) rfl rfl (by decide) (by decide) (by decide)⟩

/-- C2 counterexample: with the store holding only keys for version
1.2.30, requesting the version string 1.2.3 succeeds and returns the
RuntimeVersion for 1.2.30, a version different from the one parsed from
the requested string, because the lookup is by key prefix. -/
theorem get_version_prefix_counterexample :
    get_version [⟨"ambient-builds/1.2.30/ubuntu-22.04/x.zip", "u"⟩] "1.2.3" =
      .ok ⟨⟨1, 2, 30, "", ""⟩, [⟨.Linux, "u"⟩]⟩ ∧
    parseVersion "1.2.3" = some ⟨1, 2, 3, "", ""⟩ ∧
    (⟨1, 2, 30, "", ""⟩ : Version) ≠ ⟨1, 2, 3, "", ""⟩ :=
  ⟨rfl, rfl, by decide⟩

/-- C2 amended: whenever get_version succeeds, the returned
RuntimeVersion was parsed from some store key that extends the requested
prefix path; the returned version need not equal the version parsed from
the requested string. -/
theorem get_version_from_scoped_key (allItems : List BucketItem) (s : String)
    (rv : RuntimeVersion) (h : get_version allItems s = .ok rv) :
    ∃ item ∈ allItems, strStartsWith ("ambient-builds/" ++ s) item.name = true ∧
      version_from_path item.name = some rv.version := by
  unfold get_version at h
  cases hg : get_versions_scoped allItems s ⟨true, true⟩ with
  | error e => rw [hg] at h; exact absurd h (by simp)
  | ok vs =>
    rw [hg] at h
    cases vs with
    | nil => exact absurd h (by simp)
    | cons rv0 rest =>
      simp only [Except.ok.injEq] at h
      subst h
      unfold get_versions_scoped at hg
      obtain ⟨base, hgv, hsort⟩ := get_versions_pure_ok hg
      have hmem : rv0 ∈ sortByKey (fun rv => versionToString rv.version)
          (applyFilters ⟨true, true⟩ base) := by
        rw [← hsort]; exact List.mem_cons_self _ _
      have hmem2 : rv0 ∈ base :=
        (applyFilters_sublist ⟨true, true⟩ base).subset (mem_of_mem_sortByKey hmem)
      obtain ⟨g, hgm, hgey⟩ := groupsToVersions_mem _ _ rv0 hgv hmem2
      obtain ⟨p, hpm, hpe⟩ := groupRuns_key_mem _ g hgm
      obtain ⟨hitem, hver⟩ := keptPairs_mem _ p hpm
      have hflt := List.mem_filter.mp hitem
      refine ⟨p.2, hflt.1, hflt.2, ?_⟩
      rw [hver, hpe, hgey]

/-- C2 amended, witnessed at the counterexample store. -/
theorem get_version_from_scoped_key_witness :
    ∃ item ∈ [(⟨"ambient-builds/1.2.30/ubuntu-22.04/x.zip", "u"⟩ : BucketItem)],
      strStartsWith ("ambient-builds/" ++ "1.2.3") item.name = true ∧
      version_from_path item.name = some ⟨1, 2, 30, "", ""⟩ :=
  get_version_from_scoped_key [⟨"ambient-builds/1.2.30/ubuntu-22.04/x.zip", "u"⟩]
    "1.2.3" ⟨⟨1, 2, 30, "", ""⟩, [⟨.Linux, "u"⟩]⟩ rfl

/-- C7 counterexample: when keys of one version are separated by a key of
another version in the remote listing, the consecutive grouping emits two
RuntimeVersions carrying the same Version, so a Version can appear more
than once in the listing result. -/
theorem grouping_adjacency_counterexample :
    get_versions_pure
      [⟨"ambient-builds/0.1.0/ubuntu-22.04/a.zip", "u1"⟩,
       ⟨"ambient-builds/0.2.0/ubuntu-22.04/b.zip", "u2"⟩,
       ⟨"ambient-builds/0.1.0/windows-latest/c.zip", "u3"⟩] ⟨true, true⟩ =
      .ok [⟨⟨0, 1, 0, "", ""⟩, [⟨.Linux, "u1"⟩]⟩,
           ⟨⟨0, 1, 0, "", ""⟩, [⟨.Windows, "u3"⟩]⟩,
           ⟨⟨0, 2, 0, "", ""⟩, [⟨.Linux, "u2"⟩]⟩] ∧
    ¬ (List.map (fun rv => rv.version)
        [(⟨⟨0, 1, 0, "", ""⟩, [⟨.Linux, "u1"⟩]⟩ : RuntimeVersion),
         ⟨⟨0, 1, 0, "", ""⟩, [⟨.Windows, "u3"⟩]⟩,
         ⟨⟨0, 2, 0, "", ""⟩, [⟨.Linux, "u2"⟩]⟩]).Nodup :=
  ⟨rfl, by decide⟩

/-- C7 amended: grouping is by consecutive runs of equal parsed versions;
provided all keys with equal parsed Version are adjacent in the remote
listing (no version recurs after a different one intervenes), every
Version appears at most once in the listing result. -/
theorem grouping_nodup_of_adjacent (items : List BucketItem) (f : VersionsFilter)
    (rvs : List RuntimeVersion)
    (hAdj : ∀ a b : Version, a ≠ b →
      ¬ List.Sublist [a, b, a] ((keptPairs items).map Prod.fst))
    (h : get_versions_pure items f = .ok rvs) :
    (rvs.map (fun rv => rv.version)).Nodup := by
  obtain ⟨base, hgv, hsort⟩ := get_versions_pure_ok h
  have h1 : (base.map (fun rv => rv.version)).Nodup := by
    rw [groupsToVersions_ok_versions _ _ hgv]
    exact groupRuns_keys_nodup _ hAdj
  have h2 : ((applyFilters f base).map (fun rv => rv.version)).Nodup :=
    ((applyFilters_sublist f base).map _).nodup h1
  have hperm := (perm_sortByKey (fun rv => versionToString rv.version)
    (applyFilters f base)).map (fun rv => rv.version)
  rw [hsort]
  exact hperm.nodup_iff.mpr h2

/-- C7 amended, witnessed at a two-version catalog whose kept keys are
trivially adjacent. -/
theorem grouping_nodup_of_adjacent_witness :
    (List.map (fun rv => rv.version)
      [(⟨⟨0, 10, 0, "", ""⟩, [⟨.Linux, "u1"⟩]⟩ : RuntimeVersion),
       ⟨⟨0, 9, 0, "", ""⟩, [⟨.Linux, "u2"⟩]⟩]).Nodup :=
  grouping_nodup_of_adjacent
    [⟨"ambient-builds/0.10.0/ubuntu-22.04/ambient.zip", "u1"⟩,
     ⟨"ambient-builds/0.9.0/ubuntu-22.04/ambient.zip", "u2"⟩] ⟨true, true⟩
    [⟨⟨0, 10, 0, "", ""⟩, [⟨.Linux, "u1"⟩]⟩, ⟨⟨0, 9, 0, "", ""⟩, [⟨.Linux, "u2"⟩]⟩]
    (by
      intro a b hne hs
      have h3 := hs.length_le
      have h2 : (((keptPairs
          [⟨"ambient-builds/0.10.0/ubuntu-22.04/ambient.zip", "u1"⟩,
           ⟨"ambient-builds/0.9.0/ubuntu-22.04/ambient.zip", "u2"⟩]).map
            Prod.fst).length) = 2 := rfl
      rw [h2] at h3
      simp at h3)
    rfl

/-- C9 amended: every file write performed by the extraction loop of
main.rs download targets the one fixed output path, whatever the entry
names encode: the list of written paths is a constant replication of the
output path. -/
theorem extract_writes_single_path (outpath : List String) (arch : Archive) :
    (mainExtractWrites outpath arch).map Prod.fst =
      List.replicate (mainExtractWrites outpath arch).length outpath := by
  induction arch with
  | nil => simp [mainExtractWrites]
  | cons e rest ih =>
    unfold mainExtractWrites
    by_cases h : endsWithSlash e.name = true
    · simp only [h, if_true]
      exact ih
    · simp only [h, if_false, Bool.false_eq_true, List.map_cons, List.length_cons,
        List.replicate_succ]
      rw [ih]

end Ambient
